import Mathlib

/-!
Verification of `fix-icons.py`: a one-pass regex rewriter that replaces
oversized `<h2><svg ...><path ... d="...">` shape-data values with one of two
canonical icon paths.

The embedding works on `List Char` (the UTF-8 decoded file content).  The
Python regex `(<h2><svg[^>]*><path[^>]*d=")([^"]{80,})(" /></svg>)` is
embedded as a deterministic matcher `matchHere`, following the backtracking
semantics of Python's `re` engine specialised to this fixed pattern:

* `<svg[^>]*>` — the greedy `[^>]*` can only stop at the first `'>'`
  (backtracking to any earlier stop would place the literal `'>'` on a
  non-`'>'` character), so this part deterministically consumes up to and
  including the first `'>'`.
* `<path[^>]*d="` — the greedy `[^>]*` tries the candidate positions of the
  literal `d="` from the rightmost one (still preceded by no `'>'`)
  leftwards; the first candidate for which the remainder of the pattern
  succeeds wins.
* `([^"]{80,})"` — the greedy run can only stop at the first `'"'`; the
  match of this part succeeds iff the quote-free run there has length ≥ 80.

`re.sub` is embedded as `subScanF` (fuel-indexed scan over the text:
at each position try the pattern; on a match emit the replacement and
continue after the match, otherwise copy one character), and `re.findall`
as `findallF` (the same scan, counting matches).
-/

namespace FixIcons

/-- `CHECKMARK` from the source (line 6): the affirmative icon path. -/
def CHECKMARK : List Char :=
  "M9 12.75L11.25 15 15 9.75M21 12a9 9 0 1 1-18 0 9 9 0 0 1 18 0z".data

/-- `ALERT` from the source (line 7): the alert icon path. -/
def ALERT : List Char :=
  "M12 9v3.75m9-.75a9 9 0 1 1-18 0 9 9 0 0 1 18 0zm-9 3.75h.008v.008H12v-.008z".data

/-- The four trigger words of `replace_complex_icon` (line 23). -/
def keywords : List (List Char) :=
  ["disadvantage".data, "challenge".data, "pitfall".data, "bottleneck".data]

/-- ASCII lowering, modelling Python's `str.lower()` on the ASCII texts the
script manipulates. -/
def lowerChar (c : Char) : Char :=
  if 'A' ≤ c ∧ c ≤ 'Z' then Char.ofNat (c.toNat + 32) else c

/-- `svg_end.lower()` as a map over the characters. -/
def lowerStr (l : List Char) : List Char := l.map lowerChar

/-- Python's `a in b` on strings: `w` occurs as a contiguous substring of
`l`, i.e. as a prefix of some suffix. -/
def containsSeq (w l : List Char) : Bool :=
  l.tails.any (fun t => w.isPrefixOf t)

/-- `any(word in svg_end.lower() for word in [...])` (line 23). -/
def hasKeyword (l : List Char) : Bool :=
  keywords.any (fun w => containsSeq w (lowerStr l))

/-- `replace_complex_icon` (lines 17–28): given the three captured groups,
keep groups 1 and 3 and substitute the shape data by `ALERT` when the
captured suffix contains a trigger word, else by `CHECKMARK`. -/
def replace_complex_icon (g1 g2 g3 : List Char) : List Char :=
  g1 ++ (if hasKeyword g3 then ALERT else CHECKMARK) ++ g3

/-- Literal `<h2><svg` opening the pattern. -/
def LH : List Char := "<h2><svg".data

/-- Literal `<path`. -/
def LP : List Char := "<path".data

/-- Literal `d="`. -/
def LD : List Char := "d=\"".data

/-- Literal `" /></svg>`: the text captured by group 3 of the pattern. -/
def G3 : List Char := "\" /></svg>".data

/-- `G3` without its leading quote. -/
def G3tail : List Char := " /></svg>".data

/-- Split a list at the first occurrence of `c`: returns the (c-free)
part before and the part after. -/
def splitFirst (c : Char) : List Char → Option (List Char × List Char)
  | [] => none
  | x :: xs =>
    if x = c then some ([], xs)
    else (splitFirst c xs).map (fun p => (x :: p.1, p.2))

/-- Consume a literal prefix. -/
def stripPre (p l : List Char) : Option (List Char) :=
  if p.isPrefixOf l then some (l.drop p.length) else none

/-- All splits `t = before ++ "d=\"" ++ after` whose `before` part contains
no `'>'`, in left-to-right order: the candidate stop positions of the greedy
`[^>]*` in `<path[^>]*d="`. -/
def dCands : List Char → List (List Char × List Char)
  | [] => []
  | x :: xs =>
    (if LD.isPrefixOf (x :: xs) then [(([] : List Char), (x :: xs).drop 3)] else [])
      ++ (if x = '>' then [] else (dCands xs).map (fun p => (x :: p.1, p.2)))

/-- Attempt the `([^"]{80,})(" /></svg>)` tail of the pattern at a candidate
split: the quote-free run must reach length 80 and be followed by
`" /></svg>`.  Returns (group-2-prefix-part `b`, group 2, rest after match). -/
def tryCand (p : List Char × List Char) : Option (List Char × List Char × List Char) :=
  (splitFirst '"' p.2).bind fun q =>
    if 80 ≤ q.1.length ∧ G3tail.isPrefixOf q.2 then some (p.1, q.1, q.2.drop 9) else none

/-- First successful application of `f` along a list. -/
def firstSome (f : α → Option β) : List α → Option β
  | [] => none
  | a :: as =>
    match f a with
    | some b => some b
    | none => firstSome f as

/-- Try the whole pattern at the start of `t`.  On success returns
(group 1, group 2, rest after the match); group 3 is always the literal
`" /></svg>` = `G3`. -/
def matchHere (t : List Char) : Option (List Char × List Char × List Char) :=
  (stripPre LH t).bind fun t1 =>
    (splitFirst '>' t1).bind fun p =>
      (stripPre LP p.2).bind fun t3 =>
        (firstSome tryCand (dCands t3).reverse).map fun m =>
          (LH ++ p.1 ++ '>' :: (LP ++ m.1 ++ LD), m.2.1, m.2.2)

/-- `re.sub(pattern, replace_complex_icon, content)`: scan left to right,
replacing each non-overlapping match (group 3 of a match is always `G3`).
Fuel-indexed to keep the definition structurally recursive. -/
def subScanF : Nat → List Char → List Char
  | 0, l => l
  | _ + 1, [] => []
  | f + 1, c :: cs =>
    match matchHere (c :: cs) with
    | none => c :: subScanF f cs
    | some (g1, dta, rest) => replace_complex_icon g1 dta G3 ++ subScanF f rest

/-- `len(re.findall(pattern, content))`: the same scan, counting matches. -/
def findallF : Nat → List Char → Nat
  | 0, _ => 0
  | _ + 1, [] => 0
  | f + 1, c :: cs =>
    match matchHere (c :: cs) with
    | none => findallF f cs
    | some (_, _, rest) => findallF f rest + 1

/-- The substitution pass instrumented with the number of replacements it
actually performs. -/
def subWithCount : Nat → List Char → List Char × Nat
  | 0, l => (l, 0)
  | _ + 1, [] => ([], 0)
  | f + 1, c :: cs =>
    match matchHere (c :: cs) with
    | none =>
      let p := subWithCount f cs
      (c :: p.1, p.2)
    | some (g1, dta, rest) =>
      let p := subWithCount f rest
      (replace_complex_icon g1 dta G3 ++ p.1, p.2 + 1)

/-- `content = re.sub(pattern, replace_complex_icon, content)` on a whole
file content. -/
def fixContent (c : List Char) : List Char := subScanF c.length c

/-- `len(re.findall(pattern, original))` on a whole file content. -/
def findallCount (c : List Char) : Nat := findallF c.length c

/-- Number of replacements performed by the substitution pass. -/
def subCount (c : List Char) : Nat := (subWithCount c.length c).2

/-- Outcome of the per-file loop body (lines 11–39): the resulting on-disk
content, whether `write_text` was called, and the console line printed. -/
structure FileResult where
  newContent : List Char
  wrote : Bool
  line : String
  deriving Repr, DecidableEq

/-- One iteration of the main loop for a file named `name` with text
`content`: substitute, compare with the original, write back and report
the `re.findall` count when changed, otherwise report no changes. -/
def processFile (name : String) (content : List Char) : FileResult :=
  let c := fixContent content
  if c = content then
    { newContent := content, wrote := false, line := "No changes needed in " ++ name }
  else
    { newContent := c, wrote := true,
      line := "Fixed " ++ Nat.repr (findallCount content) ++ " complex icons in " ++ name }

/-! ### Concrete test vectors used in the claim instances -/

/-- The scenario input of spec §8.6: `<h2><svg x="1"><path d="` + 85 `A`s
+ `" /></svg><span>Pitfall</span></h2>`. -/
def inputA : List Char :=
  "<h2><svg x=\"1\"><path d=\"".data ++ List.replicate 85 'A'
    ++ "\" /></svg><span>Pitfall</span></h2>".data

/-- `inputA` with the 85-`A` run replaced by the checkmark path. -/
def outputA_check : List Char :=
  "<h2><svg x=\"1\"><path d=\"".data ++ CHECKMARK
    ++ "\" /></svg><span>Pitfall</span></h2>".data

/-- `inputA` with the 85-`A` run replaced by the alert path. -/
def outputA_alert : List Char :=
  "<h2><svg x=\"1\"><path d=\"".data ++ ALERT
    ++ "\" /></svg><span>Pitfall</span></h2>".data

/-- A fragment whose shape-data value has exactly 80 characters. -/
def input80 : List Char :=
  "<h2><svg><path d=\"".data ++ List.replicate 80 'B' ++ "\" /></svg>".data

/-- Group 1 of `input80`: everything up to and including `d="`. -/
def g1of80 : List Char := "<h2><svg><path d=\"".data

/-- A fragment whose shape-data value has exactly 79 characters. -/
def input79 : List Char :=
  "<h2><svg><path d=\"".data ++ List.replicate 79 'B' ++ "\" /></svg>".data

/-- A fragment whose shape-data value has exactly 81 characters. -/
def input81 : List Char :=
  "<h2><svg><path d=\"".data ++ List.replicate 81 'B' ++ "\" /></svg>".data

/-- `input80` after replacement of its data by the checkmark. -/
def output80 : List Char :=
  "<h2><svg><path d=\"".data ++ CHECKMARK ++ "\" /></svg>".data

/-- A fragment whose vector-icon tag is separated from the heading tag by
a space. -/
def inputC7 : List Char :=
  "<h2> <svg><path d=\"".data ++ List.replicate 85 'A' ++ "\" /></svg>".data

/-- A heading tag carrying an attribute. -/
def c9h2attr : List Char :=
  "<h2 class=\"x\"><svg><path d=\"".data ++ List.replicate 85 'A' ++ "\" /></svg>".data

/-- A single-quoted shape-data attribute. -/
def c9squote : List Char :=
  "<h2><svg><path d='".data ++ List.replicate 85 'A' ++ "' /></svg>".data

/-- A self-close written without the space before the slash. -/
def c9nospace : List Char :=
  "<h2><svg><path d=\"".data ++ List.replicate 85 'A' ++ "\"/></svg>".data

/-! ### Soundness and completeness of the helper functions -/

theorem splitFirst_some {c : Char} :
    ∀ {l a b : List Char}, splitFirst c l = some (a, b) → l = a ++ c :: b ∧ c ∉ a := by
  intro l
  induction l with
  | nil => intro a b h; simp [splitFirst] at h
  | cons x xs ih =>
    intro a b h
    by_cases hx : x = c
    · subst hx
      simp [splitFirst] at h
      obtain ⟨ha, hb⟩ := h
      subst ha; subst hb; simp
    · simp only [splitFirst, if_neg hx, Option.map_eq_some'] at h
      obtain ⟨⟨a', b'⟩, hs, he⟩ := h
      obtain ⟨h1, h2⟩ := ih hs
      simp only [Prod.mk.injEq] at he
      obtain ⟨ha, hb⟩ := he
      subst ha; subst hb
      subst h1
      constructor
      · simp
      · simp only [List.mem_cons, not_or]
        exact ⟨fun hc => hx hc.symm, h2⟩

theorem splitFirst_append {c : Char} :
    ∀ {a : List Char}, c ∉ a → ∀ b : List Char, splitFirst c (a ++ c :: b) = some (a, b) := by
  intro a
  induction a with
  | nil => intro _ b; simp [splitFirst]
  | cons x xs ih =>
    intro h b
    simp only [List.mem_cons, not_or] at h
    have hx : ¬x = c := fun hh => h.1 hh.symm
    simp [splitFirst, hx, ih h.2 b]

theorem stripPre_some {p l r : List Char} (h : stripPre p l = some r) : l = p ++ r := by
  unfold stripPre at h
  by_cases hp : p.isPrefixOf l
  · simp [hp] at h
    subst h
    obtain ⟨t, ht⟩ := List.isPrefixOf_iff_prefix.mp hp
    subst ht
    simp
  · simp [hp] at h

theorem stripPre_append (p r : List Char) : stripPre p (p ++ r) = some r := by
  unfold stripPre
  have hp : p.isPrefixOf (p ++ r) := List.isPrefixOf_iff_prefix.mpr ⟨r, rfl⟩
  simp [hp]

theorem firstSome_some {f : α → Option β} :
    ∀ {l : List α} {b : β}, firstSome f l = some b → ∃ a ∈ l, f a = some b := by
  intro l
  induction l with
  | nil => intro b h; simp [firstSome] at h
  | cons x xs ih =>
    intro b h
    cases hx : f x with
    | some v =>
      simp only [firstSome, hx] at h
      exact ⟨x, by simp, by rw [hx, h]⟩
    | none =>
      simp only [firstSome, hx] at h
      obtain ⟨a, ha, hfa⟩ := ih h
      exact ⟨a, by simp [ha], hfa⟩

theorem firstSome_isSome {f : α → Option β} :
    ∀ {l : List α} {a : α}, a ∈ l → (f a).isSome → (firstSome f l).isSome := by
  intro l
  induction l with
  | nil => intro a ha; simp at ha
  | cons x xs ih =>
    intro a ha hfa
    rcases List.mem_cons.mp ha with h | h
    · subst h
      cases hx : f a with
      | some v => simp [firstSome, hx]
      | none => rw [hx] at hfa; simp at hfa
    · cases hx : f x with
      | some v => simp [firstSome, hx]
      | none => simpa [firstSome, hx] using ih h hfa

theorem tryCand_some {p : List Char × List Char} {b dta rest : List Char}
    (h : tryCand p = some (b, dta, rest)) :
    b = p.1 ∧ p.2 = dta ++ '"' :: (G3tail ++ rest) ∧ '"' ∉ dta ∧ 80 ≤ dta.length := by
  unfold tryCand at h
  rw [Option.bind_eq_some] at h
  obtain ⟨⟨dta', v⟩, hs, h⟩ := h
  split at h
  · simp only [Option.some.injEq, Prod.mk.injEq] at h
    obtain ⟨hb, hd, hr⟩ := h
    subst hd
    rename_i hc
    dsimp only at hc
    obtain ⟨hsp1, hsp2⟩ := splitFirst_some hs
    obtain ⟨t, ht⟩ := List.isPrefixOf_iff_prefix.mp hc.2
    have hlen : t = v.drop 9 := by
      have h9 : G3tail.length = 9 := by decide
      rw [← ht, List.drop_append_of_le_length (by omega)]
      simp [h9]
    refine ⟨hb.symm, ?_, hsp2, hc.1⟩
    rw [hsp1, ← ht, hlen, hr]
  · simp at h

theorem tryCand_complete (b dta w : List Char) (hq : '"' ∉ dta) (hl : 80 ≤ dta.length) :
    tryCand (b, dta ++ '"' :: (G3tail ++ w)) = some (b, dta, w) := by
  unfold tryCand
  dsimp only
  rw [splitFirst_append hq]
  have hp : G3tail.isPrefixOf (G3tail ++ w) := List.isPrefixOf_iff_prefix.mpr ⟨w, rfl⟩
  have hdrop : (G3tail ++ w).drop 9 = w := by
    have h9 : G3tail.length = 9 := by decide
    rw [List.drop_append_of_le_length (by omega)]
    simp [h9]
  simp only [Option.some_bind, if_pos (And.intro hl hp), hdrop]

theorem dCands_cons (x : Char) (xs : List Char) :
    dCands (x :: xs) =
      (if LD.isPrefixOf (x :: xs) then [(([] : List Char), (x :: xs).drop 3)] else [])
        ++ (if x = '>' then [] else (dCands xs).map (fun p => (x :: p.1, p.2))) := rfl

theorem dCands_mem :
    ∀ {t b u : List Char}, (b, u) ∈ dCands t → t = b ++ LD ++ u ∧ '>' ∉ b := by
  intro t
  induction t with
  | nil => intro b u h; simp [dCands] at h
  | cons x xs ih =>
    intro b u h
    rw [dCands_cons] at h
    rcases List.mem_append.mp h with h1 | h1
    · by_cases hp : LD.isPrefixOf (x :: xs)
      · rw [if_pos hp] at h1
        simp only [List.mem_singleton, Prod.mk.injEq] at h1
        obtain ⟨hb, hu⟩ := h1
        subst hb
        obtain ⟨t', ht'⟩ := List.isPrefixOf_iff_prefix.mp hp
        have h3 : LD.length = 3 := by decide
        refine ⟨?_, by simp⟩
        rw [← ht'] at hu ⊢
        rw [List.drop_append_of_le_length (by omega)] at hu
        have hd3 : LD.drop 3 = ([] : List Char) := by decide
        rw [hd3, List.nil_append] at hu
        simp [hu]
      · rw [if_neg hp] at h1
        simp at h1
    · by_cases hx : x = '>'
      · rw [if_pos hx] at h1
        simp at h1
      · rw [if_neg hx] at h1
        simp only [List.mem_map] at h1
        obtain ⟨⟨b', u'⟩, hmem, he⟩ := h1
        simp only [Prod.mk.injEq] at he
        obtain ⟨hb, hu⟩ := he
        obtain ⟨h1', h2'⟩ := ih hmem
        subst hb; subst hu; subst h1'
        refine ⟨by simp, ?_⟩
        simp only [List.mem_cons, not_or]
        exact ⟨fun hc => hx hc.symm, h2'⟩

theorem dCands_complete :
    ∀ {B : List Char}, '>' ∉ B → ∀ u : List Char, (B, u) ∈ dCands (B ++ (LD ++ u)) := by
  intro B
  induction B with
  | nil =>
    intro _ u
    have hsh : ([] : List Char) ++ (LD ++ u) = 'd' :: ('=' :: '"' :: u) := rfl
    rw [hsh, dCands_cons]
    apply List.mem_append.mpr
    left
    have hp : LD.isPrefixOf ('d' :: '=' :: '"' :: u) :=
      List.isPrefixOf_iff_prefix.mpr ⟨u, rfl⟩
    rw [if_pos hp]
    simp
  | cons x B' ih =>
    intro h u
    simp only [List.mem_cons, not_or] at h
    have hx : ¬x = '>' := fun hc => h.1 hc.symm
    simp only [List.cons_append]
    rw [dCands_cons]
    apply List.mem_append.mpr
    right
    simp only [if_neg hx, List.mem_map]
    exact ⟨(B', u), ih h.2 u, by simp⟩

theorem dCands_append_structure :
    ∀ {B : List Char}, '>' ∉ B → ∀ w : List Char,
      ∃ pre, dCands (B ++ w) = pre ++ (dCands w).map (fun p => (B ++ p.1, p.2)) := by
  intro B
  induction B with
  | nil =>
    intro _ w
    exact ⟨[], by simp⟩
  | cons x B' ih =>
    intro h w
    simp only [List.mem_cons, not_or] at h
    obtain ⟨pre', hpre'⟩ := ih h.2 w
    have hx : ¬x = '>' := fun hc => h.1 hc.symm
    refine ⟨(if LD.isPrefixOf (x :: (B' ++ w)) then [(([] : List Char), (x :: (B' ++ w)).drop 3)] else [])
      ++ pre'.map (fun p => (x :: p.1, p.2)), ?_⟩
    simp only [List.cons_append]
    rw [dCands_cons, hpre', if_neg hx, List.map_append, List.map_map, List.append_assoc]
    simp [Function.comp_def]

theorem not_LD_prefixOf_head {x : Char} (xs : List Char) (hx : x ≠ 'd') :
    ¬ LD.isPrefixOf (x :: xs) := by
  intro h
  have hpre := List.isPrefixOf_iff_prefix.mp h
  have hL : LD = 'd' :: '=' :: '"' :: [] := rfl
  rw [hL, List.cons_prefix_cons] at hpre
  exact hx hpre.1.symm

theorem not_LD_prefixOf_second {x y : Char} (xs : List Char) (hy : y ≠ '=') :
    ¬ LD.isPrefixOf (x :: y :: xs) := by
  intro h
  have hpre := List.isPrefixOf_iff_prefix.mp h
  have hL : LD = 'd' :: '=' :: '"' :: [] := rfl
  rw [hL, List.cons_prefix_cons, List.cons_prefix_cons] at hpre
  exact hy hpre.2.1.symm

theorem dCands_gt (xs : List Char) : dCands ('>' :: xs) = [] := by
  rw [dCands_cons, if_neg (not_LD_prefixOf_head xs (by decide)), if_pos rfl]
  simp

theorem dCands_step {x : Char} (xs : List Char) (hx : ¬x = '>')
    (hp : ¬ LD.isPrefixOf (x :: xs)) :
    dCands (x :: xs) = (dCands xs).map (fun p => (x :: p.1, p.2)) := by
  rw [dCands_cons, if_neg hp, if_neg hx]
  simp

/-- With no `'='` (hence no `d="`) inside the quote-free data `D`, the
scan of `D ++ G3 ++ r` yields no candidate at all: the `'>'` inside `G3`
cuts the scan before `r`. -/
theorem dCands_data_nil :
    ∀ {D : List Char}, '=' ∉ D → ∀ r : List Char, dCands (D ++ (G3 ++ r)) = [] := by
  intro D
  induction D with
  | nil =>
    intro _ r
    have hsh : ([] : List Char) ++ (G3 ++ r) = '"' :: (' ' :: ('/' :: ('>' :: ("</svg>".data ++ r)))) := rfl
    rw [hsh]
    rw [dCands_step _ (by decide) (not_LD_prefixOf_head _ (by decide))]
    rw [dCands_step _ (by decide) (not_LD_prefixOf_head _ (by decide))]
    rw [dCands_step _ (by decide) (not_LD_prefixOf_head _ (by decide))]
    rw [dCands_gt]
    simp
  | cons x D' ih =>
    intro he r
    simp only [List.mem_cons, not_or] at he
    by_cases hx : x = '>'
    · subst hx
      simp only [List.cons_append]
      exact dCands_gt _
    · simp only [List.cons_append]
      have hp : ¬ LD.isPrefixOf (x :: (D' ++ (G3 ++ r))) := by
        cases hD' : D' with
        | nil => exact not_LD_prefixOf_second _ (by decide)
        | cons y D'' =>
          have hy : y ≠ '=' := by
            intro hc
            exact he.2 (by rw [hD', hc]; simp)
          simp only [List.cons_append]
          exact not_LD_prefixOf_second _ hy
      rw [dCands_step _ hx hp, ih he.2 r]
      simp

theorem G3_cons : G3 = '"' :: G3tail := rfl

/-- When the data has no `'='`, the only candidate in `LD ++ D ++ G3 ++ r`
is the one at its very start. -/
theorem dCands_LD_singleton {D : List Char} (hDe : '=' ∉ D) (r : List Char) :
    dCands (LD ++ (D ++ (G3 ++ r))) = [(([] : List Char), D ++ (G3 ++ r))] := by
  have hsh : LD ++ (D ++ (G3 ++ r)) = 'd' :: ('=' :: ('"' :: (D ++ (G3 ++ r)))) := rfl
  rw [hsh, dCands_cons]
  have hp : LD.isPrefixOf ('d' :: ('=' :: ('"' :: (D ++ (G3 ++ r))))) :=
    List.isPrefixOf_iff_prefix.mpr ⟨D ++ (G3 ++ r), rfl⟩
  rw [if_pos hp, if_neg (by decide)]
  rw [dCands_step _ (by decide) (not_LD_prefixOf_head _ (by decide))]
  rw [dCands_step _ (by decide) (not_LD_prefixOf_head _ (by decide))]
  rw [dCands_data_nil hDe r]
  simp

/-- Completeness of `matchHere` with exact groups: on a text of the pattern
shape whose data part contains no `'='` (so that no rightmost-candidate
competition arises), the matcher returns precisely the expected groups. -/
theorem matchHere_spec {A B D : List Char} (r : List Char) (hA : '>' ∉ A) (hB : '>' ∉ B)
    (hD : '"' ∉ D) (hDe : '=' ∉ D) (hl : 80 ≤ D.length) :
    matchHere (LH ++ A ++ '>' :: (LP ++ B ++ (LD ++ (D ++ (G3 ++ r))))) =
      some (LH ++ A ++ '>' :: (LP ++ B ++ LD), D, r) := by
  unfold matchHere
  rw [show LH ++ A ++ '>' :: (LP ++ B ++ (LD ++ (D ++ (G3 ++ r)))) =
      LH ++ (A ++ '>' :: (LP ++ (B ++ (LD ++ (D ++ (G3 ++ r)))))) by simp [List.append_assoc]]
  rw [stripPre_append, Option.some_bind, splitFirst_append hA, Option.some_bind]
  dsimp only
  rw [stripPre_append, Option.some_bind]
  obtain ⟨pre, hpre⟩ := dCands_append_structure hB (LD ++ (D ++ (G3 ++ r)))
  rw [hpre, dCands_LD_singleton hDe r]
  have hone : (List.map (fun p => (B ++ p.1, p.2)) [(([] : List Char), D ++ (G3 ++ r))])
      = [(B, D ++ (G3 ++ r))] := by simp
  rw [hone, List.reverse_append]
  simp only [List.reverse_singleton, List.singleton_append]
  have htry : tryCand (B, D ++ (G3 ++ r)) = some (B, D, r) := by
    have hsh2 : D ++ (G3 ++ r) = D ++ '"' :: (G3tail ++ r) := by
      rw [G3_cons]; simp
    rw [hsh2]
    exact tryCand_complete B D r hD hl
  show (firstSome tryCand ((B, D ++ (G3 ++ r)) :: pre.reverse)).map _ = _
  unfold firstSome
  rw [htry]
  simp

/-- Soundness of `matchHere`: a successful match decomposes the input into
the pattern shape, with the returned groups. -/
theorem matchHere_some {t g1 dta rest : List Char} (h : matchHere t = some (g1, dta, rest)) :
    ∃ A B, '>' ∉ A ∧ '>' ∉ B ∧ '"' ∉ dta ∧ 80 ≤ dta.length ∧
      g1 = LH ++ A ++ '>' :: (LP ++ B ++ LD) ∧
      t = LH ++ A ++ '>' :: (LP ++ B ++ (LD ++ (dta ++ (G3 ++ rest)))) := by
  unfold matchHere at h
  rw [Option.bind_eq_some] at h
  obtain ⟨t1, hs1, h⟩ := h
  rw [Option.bind_eq_some] at h
  obtain ⟨⟨a, t2⟩, hs2, h⟩ := h
  rw [Option.bind_eq_some] at h
  obtain ⟨t3, hs3, h⟩ := h
  rw [Option.map_eq_some'] at h
  obtain ⟨⟨b, dta', rest'⟩, hs4, he⟩ := h
  simp only [Prod.mk.injEq] at he
  obtain ⟨hg1, hdta, hrest⟩ := he
  obtain ⟨cand, hmem, htry⟩ := firstSome_some hs4
  obtain ⟨hc1, hc2, hc3, hc4⟩ := tryCand_some htry
  subst hc1
  obtain ⟨hm1, hm2⟩ := dCands_mem (List.mem_reverse.mp hmem)
  obtain ⟨ht1, ha⟩ := splitFirst_some hs2
  have ht := stripPre_some hs1
  have ht2 := stripPre_some hs3
  dsimp only at ht2 hc2
  subst hdta; subst hrest
  refine ⟨a, cand.1, ha, hm2, hc3, hc4, hg1.symm, ?_⟩
  rw [ht, ht1, ht2, hm1, hc2]
  have hG : ('"' : Char) :: (G3tail ++ rest') = G3 ++ rest' := by
    rw [G3_cons]; simp
  simp [List.append_assoc, hG]

/-- An occurrence of the pattern at the head of `t`: the decomposition that
characterises a successful match of
`(<h2><svg[^>]*><path[^>]*d=")([^"]{80,})(" /></svg>)` at position 0. -/
def OccAt (t : List Char) : Prop :=
  ∃ A B D r, t = LH ++ A ++ '>' :: (LP ++ B ++ (LD ++ (D ++ (G3 ++ r)))) ∧
    '>' ∉ A ∧ '>' ∉ B ∧ '"' ∉ D ∧ 80 ≤ D.length

theorem OccAt_of_matchHere {t g1 dta rest : List Char}
    (h : matchHere t = some (g1, dta, rest)) : OccAt t := by
  obtain ⟨A, B, hA, hB, hD, hl, _, ht⟩ := matchHere_some h
  exact ⟨A, B, dta, rest, ht, hA, hB, hD, hl⟩

theorem matchHere_isSome_of_OccAt {t : List Char} (h : OccAt t) :
    (matchHere t).isSome := by
  obtain ⟨A, B, D, r, ht, hA, hB, hD, hl⟩ := h
  subst ht
  unfold matchHere
  rw [show LH ++ A ++ '>' :: (LP ++ B ++ (LD ++ (D ++ (G3 ++ r)))) =
      LH ++ (A ++ '>' :: (LP ++ (B ++ (LD ++ (D ++ (G3 ++ r)))))) by simp [List.append_assoc]]
  rw [stripPre_append, Option.some_bind, splitFirst_append hA, Option.some_bind]
  dsimp only
  rw [stripPre_append, Option.some_bind]
  have hmem : (B, D ++ (G3 ++ r)) ∈ (dCands (B ++ (LD ++ (D ++ (G3 ++ r))))).reverse :=
    List.mem_reverse.mpr (dCands_complete hB (D ++ (G3 ++ r)))
  have htry : (tryCand (B, D ++ (G3 ++ r))).isSome := by
    have hsh2 : D ++ (G3 ++ r) = D ++ '"' :: (G3tail ++ r) := by
      rw [G3_cons]; simp
    rw [hsh2, tryCand_complete B D r hD hl]
    rfl
  have hfs := firstSome_isSome hmem htry
  obtain ⟨v, hv⟩ := Option.isSome_iff_exists.mp hfs
  rw [hv]
  rfl

theorem matchHere_none_iff {t : List Char} : matchHere t = none ↔ ¬ OccAt t := by
  constructor
  · intro hn hOcc
    have := matchHere_isSome_of_OccAt hOcc
    rw [hn] at this
    simp at this
  · intro hno
    cases h : matchHere t with
    | none => rfl
    | some v =>
      obtain ⟨g1, dta, rest⟩ := v
      exact absurd (OccAt_of_matchHere h) hno

theorem matchHere_some_length {t g1 dta rest : List Char}
    (h : matchHere t = some (g1, dta, rest)) : rest.length < t.length := by
  obtain ⟨A, B, _, _, _, hl, _, ht⟩ := matchHere_some h
  rw [ht]
  have h8 : LH.length = 8 := by decide
  have h5 : LP.length = 5 := by decide
  have h3 : LD.length = 3 := by decide
  have h10 : G3.length = 10 := by decide
  simp [List.length_append, h8, h5, h3, h10]
  omega

/-! ### Fuel irrelevance and unfolding equations for the scans -/

theorem subScanF_fuel :
    ∀ (f₁ : Nat) {f₂ : Nat} {l : List Char}, l.length ≤ f₁ → l.length ≤ f₂ →
      subScanF f₁ l = subScanF f₂ l := by
  intro f₁
  induction f₁ with
  | zero =>
    intro f₂ l h1 _
    have : l = [] := List.length_eq_zero.mp (Nat.le_zero.mp h1)
    subst this
    cases f₂ <;> rfl
  | succ f ih =>
    intro f₂ l h1 h2
    cases l with
    | nil => cases f₂ <;> rfl
    | cons c cs =>
      cases f₂ with
      | zero => simp at h2
      | succ f₂' =>
        simp only [List.length_cons] at h1 h2
        cases hm : matchHere (c :: cs) with
        | none =>
          simp only [subScanF, hm]
          rw [@ih f₂' cs (by omega) (by omega)]
        | some v =>
          obtain ⟨g1, dta, rest⟩ := v
          have hlt := matchHere_some_length hm
          simp only [List.length_cons] at hlt
          simp only [subScanF, hm]
          rw [@ih f₂' rest (by omega) (by omega)]

theorem findallF_fuel :
    ∀ (f₁ : Nat) {f₂ : Nat} {l : List Char}, l.length ≤ f₁ → l.length ≤ f₂ →
      findallF f₁ l = findallF f₂ l := by
  intro f₁
  induction f₁ with
  | zero =>
    intro f₂ l h1 _
    have : l = [] := List.length_eq_zero.mp (Nat.le_zero.mp h1)
    subst this
    cases f₂ <;> rfl
  | succ f ih =>
    intro f₂ l h1 h2
    cases l with
    | nil => cases f₂ <;> rfl
    | cons c cs =>
      cases f₂ with
      | zero => simp at h2
      | succ f₂' =>
        simp only [List.length_cons] at h1 h2
        cases hm : matchHere (c :: cs) with
        | none =>
          simp only [findallF, hm]
          rw [@ih f₂' cs (by omega) (by omega)]
        | some v =>
          obtain ⟨g1, dta, rest⟩ := v
          have hlt := matchHere_some_length hm
          simp only [List.length_cons] at hlt
          simp only [findallF, hm]
          rw [@ih f₂' rest (by omega) (by omega)]

theorem subWithCount_fuel :
    ∀ (f₁ : Nat) {f₂ : Nat} {l : List Char}, l.length ≤ f₁ → l.length ≤ f₂ →
      subWithCount f₁ l = subWithCount f₂ l := by
  intro f₁
  induction f₁ with
  | zero =>
    intro f₂ l h1 _
    have : l = [] := List.length_eq_zero.mp (Nat.le_zero.mp h1)
    subst this
    cases f₂ <;> rfl
  | succ f ih =>
    intro f₂ l h1 h2
    cases l with
    | nil => cases f₂ <;> rfl
    | cons c cs =>
      cases f₂ with
      | zero => simp at h2
      | succ f₂' =>
        simp only [List.length_cons] at h1 h2
        cases hm : matchHere (c :: cs) with
        | none =>
          simp only [subWithCount, hm]
          rw [@ih f₂' cs (by omega) (by omega)]
        | some v =>
          obtain ⟨g1, dta, rest⟩ := v
          have hlt := matchHere_some_length hm
          simp only [List.length_cons] at hlt
          simp only [subWithCount, hm]
          rw [@ih f₂' rest (by omega) (by omega)]

theorem fixContent_nil : fixContent [] = [] := rfl

theorem fixContent_cons_none {c : Char} {cs : List Char}
    (hm : matchHere (c :: cs) = none) : fixContent (c :: cs) = c :: fixContent cs := by
  show subScanF (c :: cs).length (c :: cs) = c :: fixContent cs
  simp only [List.length_cons, subScanF, hm]
  rfl

theorem fixContent_match {t g1 dta rest : List Char}
    (hm : matchHere t = some (g1, dta, rest)) :
    fixContent t = replace_complex_icon g1 dta G3 ++ fixContent rest := by
  cases t with
  | nil => simp [matchHere, stripPre, List.isPrefixOf] at hm
  | cons c cs =>
    have hlt := matchHere_some_length hm
    simp only [List.length_cons] at hlt
    show subScanF (c :: cs).length (c :: cs) = _
    simp only [List.length_cons, subScanF, hm]
    rw [subScanF_fuel cs.length (by omega) (le_refl _)]
    rfl

theorem findallCount_nil : findallCount [] = 0 := rfl

theorem findallCount_cons_none {c : Char} {cs : List Char}
    (hm : matchHere (c :: cs) = none) : findallCount (c :: cs) = findallCount cs := by
  show findallF (c :: cs).length (c :: cs) = findallCount cs
  simp only [List.length_cons, findallF, hm]
  rfl

theorem findallCount_match {t g1 dta rest : List Char}
    (hm : matchHere t = some (g1, dta, rest)) :
    findallCount t = findallCount rest + 1 := by
  cases t with
  | nil => simp [matchHere, stripPre, List.isPrefixOf] at hm
  | cons c cs =>
    have hlt := matchHere_some_length hm
    simp only [List.length_cons] at hlt
    show findallF (c :: cs).length (c :: cs) = _
    simp only [List.length_cons, findallF, hm]
    rw [findallF_fuel cs.length (by omega) (le_refl _)]
    rfl

theorem subCount_nil : subCount [] = 0 := rfl

theorem subCount_cons_none {c : Char} {cs : List Char}
    (hm : matchHere (c :: cs) = none) : subCount (c :: cs) = subCount cs := by
  show (subWithCount (c :: cs).length (c :: cs)).2 = subCount cs
  simp only [List.length_cons, subWithCount, hm]
  rfl

theorem subCount_match {t g1 dta rest : List Char}
    (hm : matchHere t = some (g1, dta, rest)) :
    subCount t = subCount rest + 1 := by
  cases t with
  | nil => simp [matchHere, stripPre, List.isPrefixOf] at hm
  | cons c cs =>
    have hlt := matchHere_some_length hm
    simp only [List.length_cons] at hlt
    show (subWithCount (c :: cs).length (c :: cs)).2 = _
    simp only [List.length_cons, subWithCount, hm]
    rw [subWithCount_fuel cs.length (by omega) (le_refl _)]
    rfl

/-! ### Structural properties of the substitution -/

/-- Group 3 of the pattern always captures exactly `" /></svg>`, which
contains no trigger word, so every performed replacement inserts the
checkmark icon. -/
theorem replace_G3 (g1 dta : List Char) :
    replace_complex_icon g1 dta G3 = g1 ++ CHECKMARK ++ G3 := by
  have h : hasKeyword G3 = false := by decide
  simp [replace_complex_icon, h]

theorem matchHere_some_eq {t g1 dta rest : List Char}
    (h : matchHere t = some (g1, dta, rest)) :
    t = g1 ++ (dta ++ (G3 ++ rest)) ∧ 80 ≤ dta.length := by
  obtain ⟨A, B, _, _, _, hl, hg1, ht⟩ := matchHere_some h
  refine ⟨?_, hl⟩
  rw [ht, hg1]
  simp [List.append_assoc]

theorem fixContent_length :
    ∀ (n : Nat) (t : List Char), t.length ≤ n →
      (fixContent t).length ≤ t.length ∧
        (0 < findallCount t → (fixContent t).length < t.length) := by
  intro n
  induction n with
  | zero =>
    intro t h
    have ht : t = [] := List.length_eq_zero.mp (Nat.le_zero.mp h)
    subst ht
    simp [fixContent_nil, findallCount_nil]
  | succ n ih =>
    intro t h
    cases t with
    | nil => simp [fixContent_nil, findallCount_nil]
    | cons c cs =>
      simp only [List.length_cons] at h
      cases hm : matchHere (c :: cs) with
      | none =>
        rw [fixContent_cons_none hm, findallCount_cons_none hm]
        have hcs := ih cs (by omega)
        constructor
        · simp only [List.length_cons]
          omega
        · intro hpos
          have h2 := hcs.2 hpos
          simp only [List.length_cons]
          omega
      | some v =>
        obtain ⟨g1, dta, rest⟩ := v
        obtain ⟨heq, hdl⟩ := matchHere_some_eq hm
        have hrest := matchHere_some_length hm
        simp only [List.length_cons] at hrest
        have ihr := ih rest (by omega)
        rw [fixContent_match hm, replace_G3]
        have hc62 : CHECKMARK.length = 62 := by decide
        have hg10 : G3.length = 10 := by decide
        have hlen1 : (g1 ++ CHECKMARK ++ G3 ++ fixContent rest).length
            = g1.length + 62 + 10 + (fixContent rest).length := by
          simp [List.length_append, hc62, hg10]
          omega
        have hlen2 : (c :: cs).length = g1.length + dta.length + 10 + rest.length := by
          rw [heq]
          simp [List.length_append, hg10]
          omega
        constructor
        · rw [hlen1, hlen2]
          omega
        · intro _
          rw [hlen1, hlen2]
          omega

/-- A content with no match anywhere is returned unchanged. -/
theorem fixContent_id_of_findall_zero :
    ∀ (n : Nat) (t : List Char), t.length ≤ n → findallCount t = 0 → fixContent t = t := by
  intro n
  induction n with
  | zero =>
    intro t h _
    have ht : t = [] := List.length_eq_zero.mp (Nat.le_zero.mp h)
    subst ht
    exact fixContent_nil
  | succ n ih =>
    intro t h hz
    cases t with
    | nil => exact fixContent_nil
    | cons c cs =>
      simp only [List.length_cons] at h
      cases hm : matchHere (c :: cs) with
      | none =>
        rw [findallCount_cons_none hm] at hz
        rw [fixContent_cons_none hm, ih cs (by omega) hz]
      | some v =>
        obtain ⟨g1, dta, rest⟩ := v
        rw [findallCount_match hm] at hz
        simp at hz

/-- The file is rewritten exactly when the pattern occurs: the substituted
content differs from the original iff `re.findall` finds a match. -/
theorem fixContent_ne_iff (c : List Char) : fixContent c ≠ c ↔ 0 < findallCount c := by
  constructor
  · intro hne
    by_contra hz
    push_neg at hz
    exact hne (fixContent_id_of_findall_zero c.length c (le_refl _) (Nat.le_zero.mp hz))
  · intro hpos hEq
    have := (fixContent_length c.length c (le_refl _)).2 hpos
    rw [hEq] at this
    omega

/-- A content none of whose suffixes starts an occurrence of the pattern is
left unchanged by the substitution. -/
theorem fixContent_id_of_clean :
    ∀ (n : Nat) (t : List Char), t.length ≤ n →
      (∀ y, y.IsSuffix t → ¬ OccAt y) → fixContent t = t := by
  intro n
  induction n with
  | zero =>
    intro t h _
    have ht : t = [] := List.length_eq_zero.mp (Nat.le_zero.mp h)
    subst ht
    exact fixContent_nil
  | succ n ih =>
    intro t h hcl
    cases t with
    | nil => exact fixContent_nil
    | cons c cs =>
      simp only [List.length_cons] at h
      cases hm : matchHere (c :: cs) with
      | none =>
        rw [fixContent_cons_none hm]
        rw [ih cs (by omega) (fun y hy => hcl y (hy.trans ⟨[c], rfl⟩))]
      | some v =>
        obtain ⟨g1, dta, rest⟩ := v
        exact absurd (OccAt_of_matchHere hm) (hcl _ ⟨[], rfl⟩)

/-! ### Idempotence: the inserted icon text can never take part in a new
occurrence of the pattern -/

theorem suffix_append_split {m x y : List Char} (h : m.IsSuffix (x ++ y)) :
    m.IsSuffix y ∨ ∃ x', x' ≠ [] ∧ x'.IsSuffix x ∧ m = x' ++ y := by
  obtain ⟨p, hp⟩ := h
  rcases List.append_eq_append_iff.mp hp with ⟨k, hk1, hk2⟩ | ⟨k, hk1, hk2⟩
  · cases k with
    | nil =>
      left
      rw [List.nil_append] at hk2
      rw [hk2]
    | cons a as =>
      right
      exact ⟨a :: as, by simp, ⟨p, hk1.symm⟩, hk2⟩
  · left
    exact ⟨k, hk2.symm⟩

theorem mem_of_getLast?_eq {l : List Char} {a : Char} (h : l.getLast? = some a) : a ∈ l := by
  obtain ⟨hne, he⟩ := List.mem_getLast?_eq_getLast (Option.mem_def.mpr h)
  rw [he]
  exact List.getLast_mem hne

theorem getLast?_of_suffix {v' v : List Char} (h : v'.IsSuffix v) (hne : v' ≠ []) :
    v.getLast? = v'.getLast? := by
  obtain ⟨p, hp⟩ := h
  cases hx : v'.getLast? with
  | none => exact absurd (List.getLast?_eq_none_iff.mp hx) hne
  | some a => rw [← hp, List.getLast?_append, hx]; rfl

/-- The shared facts about the two canonical icons that the locality
argument uses: they start with `'M'`, contain no quote and no angle
bracket, end in `'z'`, and are shorter than 80 characters. -/
theorem icon_facts (R : List Char) (hR : R = CHECKMARK ∨ R = ALERT) :
    (∃ Rt, R = 'M' :: Rt) ∧ '"' ∉ R ∧ '>' ∉ R ∧ '<' ∉ R ∧
      R.getLast? = some 'z' ∧ R.length < 80 := by
  rcases hR with h | h <;> subst h
  · exact ⟨⟨_, rfl⟩, by decide, by decide, by decide, by decide, by decide⟩
  · exact ⟨⟨_, rfl⟩, by decide, by decide, by decide, by decide, by decide⟩

theorem G3_gt_suffix {j : List Char} (hj : j.IsSuffix G3) (hh : j.head? = some '>') :
    j = G3.drop 3 ∨ j = ['>'] := by
  have hall : ∀ x ∈ G3.tails, x.head? = some '>' → x = G3.drop 3 ∨ x = ['>'] := by decide
  exact hall j ((List.mem_tails j G3).mpr hj) hh

/-- Key locality lemma.  Consider a text `v ++ R ++ " /></svg>" ++ z` where
`v` ends with `'"'` and `R` is one of the two canonical icons — the exact
context in which the substitution ever places an icon.  If the pattern
occurs at the very start of this text, then the whole occurrence already
lies inside `v`: the inserted icon and its closing markup cannot
contribute to an occurrence. -/
theorem avoid {v R z : List Char} (hlast : v.getLast? = some '"')
    (hR : R = CHECKMARK ∨ R = ALERT)
    (hocc : OccAt (v ++ (R ++ (G3 ++ z)))) : OccAt v := by
  obtain ⟨⟨Rt, hRt⟩, hRq, hRgt, hRlt, hRlast, hRlen⟩ := icon_facts R hR
  obtain ⟨A, B, D, r, heq, hA, hB, hD, hl⟩ := hocc
  have heq' : v ++ (R ++ (G3 ++ z)) =
      (LH ++ A ++ '>' :: (LP ++ B ++ (LD ++ (D ++ G3)))) ++ r := by
    rw [heq]; simp [List.append_assoc]
  rcases List.append_eq_append_iff.mp heq' with ⟨m, hm1, hm2⟩ | ⟨m, hm1, hm2⟩
  swap
  case _ =>
    -- the occurrence ends before `v` does
    refine ⟨A, B, D, m, ?_, hA, hB, hD, hl⟩
    rw [hm1]
    simp [List.append_assoc]
  case _ =>
  cases m with
  | nil =>
    rw [List.append_nil] at hm1
    refine ⟨A, B, D, [], ?_, hA, hB, hD, hl⟩
    rw [← hm1]
    simp [List.append_assoc]
  | cons m0 mt =>
  -- the cut falls strictly inside the occurrence; `m` is a nonempty prefix
  -- of `R ++ G3 ++ z` (hence starts with `'M'`) and a suffix of the
  -- occurrence minus `r`.
  rw [hRt] at hm2
  simp only [List.cons_append, List.cons.injEq] at hm2
  obtain ⟨hm0, hmtail⟩ := hm2
  subst hm0
  have hmsuff : (('M' : Char) :: mt).IsSuffix
      (LH ++ A ++ '>' :: (LP ++ B ++ (LD ++ (D ++ G3)))) := ⟨v, hm1.symm⟩
  -- a piece of the cut equal to the whole icon `R` would have to be a
  -- suffix of the data `D`, forcing `D = R`, which is too short
  have hxR : ∀ x' : List Char, x'.IsSuffix D → x' = R →
      (LH ++ A ++ '>' :: (LP ++ B ++ (LD ++ (D ++ G3)))) = v ++ (x' ++ G3) → False := by
    intro x' hsufD hxr hveq
    obtain ⟨D₁, hD₁⟩ := hsufD
    cases D₁ with
    | nil =>
      rw [List.nil_append] at hD₁
      rw [← hD₁, hxr] at hl
      omega
    | cons d0 dt =>
      have hXsh : LH ++ A ++ '>' :: (LP ++ B ++ (LD ++ (D ++ G3))) =
          ((LH ++ A ++ '>' :: (LP ++ B ++ LD)) ++ (d0 :: dt)) ++ (x' ++ G3) := by
        rw [← hD₁]
        simp [List.append_assoc]
      rw [hXsh] at hveq
      have hv := List.append_cancel_right hveq
      have hq : ('"' : Char) ∈ d0 :: dt := by
        have hle := @getLast?_of_suffix (d0 :: dt) v
          ⟨LH ++ A ++ '>' :: (LP ++ B ++ LD), hv⟩ (by simp)
        rw [hlast] at hle
        exact mem_of_getLast?_eq hle.symm
      have : ('"' : Char) ∈ D := by
        rw [← hD₁]
        exact List.mem_append.mpr (Or.inl hq)
      exact absurd this hD
  -- peel the trailing G3
  have hX : LH ++ A ++ '>' :: (LP ++ B ++ (LD ++ (D ++ G3))) =
      (LH ++ A ++ '>' :: (LP ++ B ++ (LD ++ D))) ++ G3 := by simp [List.append_assoc]
  rw [hX] at hmsuff
  rcases suffix_append_split hmsuff with hc | ⟨x', hx'ne, hx'suf, hx'eq⟩
  · exact absurd (hc.subset (List.mem_cons_self _ _)) (by decide)
  obtain ⟨xh, xt, rfl⟩ : ∃ h t, x' = h :: t := by
    cases x' with
    | nil => exact absurd rfl hx'ne
    | cons h t => exact ⟨h, t, rfl⟩
  rw [List.cons_append] at hx'eq
  simp only [List.cons.injEq] at hx'eq
  obtain ⟨hxh, hxteq⟩ := hx'eq
  subst hxh
  -- peel D
  have hXX : LH ++ A ++ '>' :: (LP ++ B ++ (LD ++ D)) =
      (LH ++ A ++ '>' :: (LP ++ B ++ LD)) ++ D := by simp [List.append_assoc]
  rw [hXX] at hx'suf
  rcases suffix_append_split hx'suf with hcD | ⟨y', hy'ne, hy'suf, hy'eq⟩
  · -- the data case: the cut falls inside `D`
    have hcomp : R ++ (G3 ++ z) = ('M' :: xt) ++ (G3 ++ r) := by
      rw [hRt]
      simp only [List.cons_append, List.cons.injEq, true_and]
      rw [hmtail, hxteq]
      simp [List.append_assoc]
    have hveq : (LH ++ A ++ '>' :: (LP ++ B ++ (LD ++ (D ++ G3)))) =
        v ++ (('M' :: xt) ++ G3) := by
      rw [hm1, hxteq]
      simp
    rcases List.append_eq_append_iff.mp hcomp with ⟨k, hk1, hk2⟩ | ⟨k, hk1, hk2⟩
    · cases k with
      | nil =>
        rw [List.append_nil] at hk1
        exact (hxR _ hcD hk1 hveq).elim
      | cons k0 kt =>
        have hk0 : k0 = '"' := by
          rw [G3_cons] at hk2
          simp only [List.cons_append, List.cons.injEq] at hk2
          exact hk2.1.symm
        have hmem : ('"' : Char) ∈ ('M' :: xt) := by
          rw [hk1, hk0]
          exact List.mem_append.mpr (Or.inr (by simp))
        exact absurd (hcD.subset hmem) hD
    · cases k with
      | nil =>
        rw [List.append_nil] at hk1
        exact (hxR _ hcD hk1.symm hveq).elim
      | cons k0 kt =>
        have hk0 : k0 = '"' := by
          rw [G3_cons] at hk2
          simp only [List.cons_append, List.cons.injEq] at hk2
          exact hk2.1.symm
        have : ('"' : Char) ∈ R := by
          rw [hk1, hk0]
          exact List.mem_append.mpr (Or.inr (by simp))
        exact absurd this hRq
  · -- the cut is left of `D`
    obtain ⟨yh, yt, rfl⟩ : ∃ h t, y' = h :: t := by
      cases y' with
      | nil => exact absurd rfl hy'ne
      | cons h t => exact ⟨h, t, rfl⟩
    rw [List.cons_append] at hy'eq
    simp only [List.cons.injEq] at hy'eq
    obtain ⟨hyh, hyteq⟩ := hy'eq
    subst hyh
    -- peel LD
    have hX2 : LH ++ A ++ '>' :: (LP ++ B ++ LD) =
        (LH ++ A ++ '>' :: (LP ++ B)) ++ LD := by simp [List.append_assoc]
    rw [hX2] at hy'suf
    rcases suffix_append_split hy'suf with hcLD | ⟨b', hb'ne, hb'suf, hb'eq⟩
    · exact absurd (hcLD.subset (List.mem_cons_self _ _)) (by decide)
    obtain ⟨bh, bt, rfl⟩ : ∃ h t, b' = h :: t := by
      cases b' with
      | nil => exact absurd rfl hb'ne
      | cons h t => exact ⟨h, t, rfl⟩
    rw [List.cons_append] at hb'eq
    simp only [List.cons.injEq] at hb'eq
    obtain ⟨hbh, hbteq⟩ := hb'eq
    subst hbh
    -- peel B
    have hX3 : LH ++ A ++ '>' :: (LP ++ B) =
        (LH ++ A ++ '>' :: LP) ++ B := by simp [List.append_assoc]
    rw [hX3] at hb'suf
    rcases suffix_append_split hb'suf with hcB | ⟨c', hc'ne, hc'suf, hc'eq⟩
    · -- the `[^>]*` of `<path[^>]*d="` case: the cut falls inside `B`
      have hcomp : R ++ (G3 ++ z) = ('M' :: bt) ++ (LD ++ (D ++ (G3 ++ r))) := by
        rw [hRt]
        simp only [List.cons_append, List.cons.injEq, true_and]
        rw [hmtail, hxteq, hyteq, hbteq]
        simp [List.append_assoc]
      have hLDc : LD ++ (D ++ (G3 ++ r)) = 'd' :: ('=' :: ('"' :: (D ++ (G3 ++ r)))) := rfl
      rcases List.append_eq_append_iff.mp hcomp with ⟨k, hk1, hk2⟩ | ⟨k, hk1, hk2⟩
      · cases k with
        | nil =>
          rw [List.nil_append, hLDc, G3_cons] at hk2
          simp only [List.cons_append, List.cons.injEq] at hk2
          exact absurd hk2.1 (by decide)
        | cons k0 kt =>
          rcases List.append_eq_append_iff.mp hk2 with ⟨k2, hk21, hk22⟩ | ⟨k3, hk31, hk32⟩
          · have hgt : ('>' : Char) ∈ k0 :: kt := by
              rw [hk21]
              exact List.mem_append.mpr (Or.inl (by decide))
            have : ('>' : Char) ∈ ('M' :: bt) := by
              rw [hk1]
              exact List.mem_append.mpr (Or.inr hgt)
            exact absurd (hcB.subset this) hB
          · cases k3 with
            | nil =>
              rw [List.append_nil] at hk31
              have hgt : ('>' : Char) ∈ k0 :: kt := by
                rw [← hk31]
                decide
              have : ('>' : Char) ∈ ('M' :: bt) := by
                rw [hk1]
                exact List.mem_append.mpr (Or.inr hgt)
              exact absurd (hcB.subset this) hB
            | cons k30 k3t =>
              rw [hLDc] at hk32
              simp only [List.cons_append, List.cons.injEq] at hk32
              have : ('d' : Char) ∈ G3 := by
                rw [hk31, ← hk32.1]
                exact List.mem_append.mpr (Or.inr (by simp))
              exact absurd this (by decide)
      · rcases List.append_eq_append_iff.mp hk2 with ⟨k2, hk21, hk22⟩ | ⟨k3, hk31, hk32⟩
        · have : ('"' : Char) ∈ R := by
            rw [hk1]
            refine List.mem_append.mpr (Or.inr ?_)
            rw [hk21]
            exact List.mem_append.mpr (Or.inl (by decide))
          exact absurd this hRq
        · -- `k` is a prefix of `d="` and a suffix of the icon
          cases k with
          | nil =>
            rw [List.nil_append] at hk31
            rw [← hk31, hLDc, G3_cons] at hk32
            simp only [List.cons_append, List.cons.injEq] at hk32
            exact absurd hk32.1 (by decide)
          | cons q0 qt =>
            have hLD3 : ('d' : Char) :: ('=' :: ('"' :: [])) = q0 :: (qt ++ k3) := by
              rw [show ('d' : Char) :: ('=' :: ('"' :: [])) = LD from rfl, hk31]
              simp
            simp only [List.cons.injEq] at hLD3
            obtain ⟨hq0, hqt⟩ := hLD3
            cases qt with
            | nil =>
              -- k = "d": the icon would end in 'd'
              have : R.getLast? = some 'd' := by
                rw [hk1, ← hq0, List.getLast?_append]
                rfl
              rw [hRlast] at this
              simp at this
            | cons q1 q1t =>
              simp only [List.cons_append, List.cons.injEq] at hqt
              obtain ⟨hq1, hq1t⟩ := hqt
              cases q1t with
              | nil =>
                -- k = "d=": the icon would end in '='
                have : R.getLast? = some '=' := by
                  rw [hk1, ← hq0, ← hq1, List.getLast?_append]
                  rfl
                rw [hRlast] at this
                simp at this
              | cons q2 q2t =>
                -- k = "d=\"": the icon would contain a quote
                simp only [List.cons_append, List.cons.injEq] at hq1t
                have : ('"' : Char) ∈ R := by
                  rw [hk1, ← hq0, ← hq1, ← hq1t.1]
                  refine List.mem_append.mpr (Or.inr ?_)
                  simp
                exact absurd this hRq
    · -- the cut is left of `B`
      obtain ⟨ch, ct, rfl⟩ : ∃ h t, c' = h :: t := by
        cases c' with
        | nil => exact absurd rfl hc'ne
        | cons h t => exact ⟨h, t, rfl⟩
      rw [List.cons_append] at hc'eq
      simp only [List.cons.injEq] at hc'eq
      obtain ⟨hch, hcteq⟩ := hc'eq
      subst hch
      -- peel LP
      have hX4 : LH ++ A ++ '>' :: LP = (LH ++ A ++ ['>']) ++ LP := by
        simp [List.append_assoc]
      rw [hX4] at hc'suf
      rcases suffix_append_split hc'suf with hcLP | ⟨e', he'ne, he'suf, he'eq⟩
      · exact absurd (hcLP.subset (List.mem_cons_self _ _)) (by decide)
      obtain ⟨eh, et, rfl⟩ : ∃ h t, e' = h :: t := by
        cases e' with
        | nil => exact absurd rfl he'ne
        | cons h t => exact ⟨h, t, rfl⟩
      rw [List.cons_append] at he'eq
      simp only [List.cons.injEq] at he'eq
      obtain ⟨heh, heteq⟩ := he'eq
      subst heh
      -- peel the '>' literal
      rcases suffix_append_split he'suf with hcgt | ⟨a', ha'ne, ha'suf, ha'eq⟩
      · exact absurd (hcgt.subset (List.mem_cons_self _ _)) (by decide)
      obtain ⟨ah, a2, rfl⟩ : ∃ h t, a' = h :: t := by
        cases a' with
        | nil => exact absurd rfl ha'ne
        | cons h t => exact ⟨h, t, rfl⟩
      rw [List.cons_append] at ha'eq
      simp only [List.cons.injEq] at ha'eq
      obtain ⟨hah, hateq⟩ := ha'eq
      subst hah
      -- peel A
      rcases suffix_append_split ha'suf with hcA | ⟨h', hh'ne, hh'suf, hh'eq⟩
      · -- the `[^>]*` of `<svg[^>]*>` case: the cut falls inside `A`
        have hcomp : R ++ (G3 ++ z) =
            ('M' :: a2) ++ ('>' :: (LP ++ (B ++ (LD ++ (D ++ (G3 ++ r)))))) := by
          rw [hRt]
          simp only [List.cons_append, List.cons.injEq, true_and]
          rw [hmtail, hxteq, hyteq, hbteq, hcteq, heteq, hateq]
          simp [List.append_assoc]
        rcases List.append_eq_append_iff.mp hcomp with ⟨k, hk1, hk2⟩ | ⟨k, hk1, hk2⟩
        · cases k with
          | nil =>
            rw [List.nil_append, G3_cons] at hk2
            simp only [List.cons_append, List.cons.injEq] at hk2
            exact absurd hk2.1 (by decide)
          | cons k0 kt =>
            rcases List.append_eq_append_iff.mp hk2 with ⟨k2, hk21, hk22⟩ | ⟨k3, hk31, hk32⟩
            · have hgt : ('>' : Char) ∈ k0 :: kt := by
                rw [hk21]
                exact List.mem_append.mpr (Or.inl (by decide))
              have : ('>' : Char) ∈ ('M' :: a2) := by
                rw [hk1]
                exact List.mem_append.mpr (Or.inr hgt)
              exact absurd (hcA.subset this) hA
            · cases k3 with
              | nil =>
                rw [List.append_nil] at hk31
                have hgt : ('>' : Char) ∈ k0 :: kt := by
                  rw [← hk31]
                  decide
                have : ('>' : Char) ∈ ('M' :: a2) := by
                  rw [hk1]
                  exact List.mem_append.mpr (Or.inr hgt)
                exact absurd (hcA.subset this) hA
              | cons k30 k3t =>
                have hk30 : k30 = '>' ∧ k3t ++ z = LP ++ (B ++ (LD ++ (D ++ (G3 ++ r)))) := by
                  rw [List.cons_append] at hk32
                  simp only [List.cons.injEq] at hk32
                  exact ⟨hk32.1.symm, hk32.2.symm⟩
                rcases G3_gt_suffix ⟨k0 :: kt, hk31.symm⟩
                    (by rw [hk30.1]; rfl) with hj | hj
                · -- k3 = "></svg>": would need "<path" right after, but "</svg" follows
                  have hk3t : k3t = '<' :: ('/' :: ('s' :: ('v' :: ('g' :: ('>' :: []))))) := by
                    have := hj
                    rw [show G3.drop 3 = ('>' : Char) :: ('<' :: ('/' :: ('s' :: ('v' :: ('g' :: ('>' :: [])))))) from rfl] at this
                    simp only [List.cons.injEq] at this
                    exact this.2
                  have hbad := hk30.2
                  rw [hk3t, show LP ++ (B ++ (LD ++ (D ++ (G3 ++ r)))) =
                    '<' :: ('p' :: ('a' :: ('t' :: ('h' :: (B ++ (LD ++ (D ++ (G3 ++ r)))))))) from rfl] at hbad
                  simp only [List.cons_append, List.cons.injEq] at hbad
                  exact absurd hbad.2.1 (by decide)
                · -- k3 = ">": the quote-free `k` would contain the earlier '>'
                  have hcnt : List.count '>' G3 = 2 := by decide
                  rw [hk31, hj, List.count_append] at hcnt
                  have : ('>' : Char) ∈ k0 :: kt := by
                    have h1 : List.count '>' ['>'] = 1 := by decide
                    rw [h1] at hcnt
                    exact List.count_pos_iff.mp (by omega)
                  have : ('>' : Char) ∈ ('M' :: a2) := by
                    rw [hk1]
                    exact List.mem_append.mpr (Or.inr this)
                  exact absurd (hcA.subset this) hA
        · cases k with
          | nil =>
            rw [List.nil_append] at hk2
            rw [G3_cons] at hk2
            simp only [List.cons_append, List.cons.injEq] at hk2
            exact absurd hk2.1 (by decide)
          | cons k0 kt =>
            have hk0 : k0 = '>' := by
              rw [List.cons_append] at hk2
              simp only [List.cons.injEq] at hk2
              exact hk2.1.symm
            have : ('>' : Char) ∈ R := by
              rw [hk1, hk0]
              exact List.mem_append.mpr (Or.inr (by simp))
            exact absurd this hRgt
      · -- the cut would fall inside the literal "<h2><svg"
        have : ('M' : Char) ∈ LH := by
          obtain ⟨hh, ht, rfl⟩ : ∃ h t, h' = h :: t := by
            cases h' with
            | nil => exact absurd rfl hh'ne
            | cons h t => exact ⟨h, t, rfl⟩
          rw [List.cons_append] at hh'eq
          simp only [List.cons.injEq] at hh'eq
          exact hh'suf.subset (hh'eq.1 ▸ (by simp))
        exact absurd this (by decide)


theorem OccAt_append {v : List Char} (h : OccAt v) (X : List Char) : OccAt (v ++ X) := by
  obtain ⟨A, B, D, r, heq, hA, hB, hD, hl⟩ := h
  refine ⟨A, B, D, r ++ X, ?_, hA, hB, hD, hl⟩
  rw [heq]
  simp [List.append_assoc]

theorem OccAt_head {y : List Char} (h : OccAt y) : ∃ w, y = '<' :: ('h' :: w) := by
  obtain ⟨A, B, D, r, heq, _⟩ := h
  exact ⟨_, by rw [heq]; rfl⟩

theorem OccAt_count_gt {y : List Char} (h : OccAt y) : 4 ≤ List.count '>' y := by
  obtain ⟨A, B, D, r, heq, hA, hB, hD, hl⟩ := h
  rw [heq]
  have h1 : List.count '>' LH = 1 := by decide
  have h4 : List.count '>' G3 = 2 := by decide
  simp [List.count_append, List.count_cons, h1, h4]
  omega

theorem g1_last {A B : List Char} : (LH ++ A ++ '>' :: (LP ++ B ++ LD)).getLast? = some '"' := by
  have hsuf : LD.IsSuffix (LH ++ A ++ '>' :: (LP ++ B ++ LD)) :=
    ⟨LH ++ A ++ '>' :: (LP ++ B), by simp [List.append_assoc]⟩
  rw [getLast?_of_suffix hsuf (by decide)]
  rfl

theorem g1_count {A B : List Char} (hA : '>' ∉ A) (hB : '>' ∉ B) :
    List.count '>' (LH ++ A ++ '>' :: (LP ++ B ++ LD)) = 2 := by
  have hcA : List.count '>' A = 0 := List.count_eq_zero.mpr hA
  have hcB : List.count '>' B = 0 := List.count_eq_zero.mpr hB
  have h1 : List.count '>' LH = 1 := by decide
  have h2 : List.count '>' LP = 0 := by decide
  have h3 : List.count '>' LD = 0 := by decide
  simp [List.count_append, List.count_cons, hcA, hcB, h1, h2, h3]

theorem G3_lt_suffix {j : List Char} (hj : j.IsSuffix G3) (hh : j.head? = some '<') :
    j = '<' :: ('/' :: ('s' :: ('v' :: ('g' :: ('>' :: []))))) := by
  have hall : ∀ x ∈ G3.tails, x.head? = some '<' →
      x = '<' :: ('/' :: ('s' :: ('v' :: ('g' :: ('>' :: []))))) := by decide
  exact hall j ((List.mem_tails j G3).mpr hj) hh

/-- Substituted text maps occurrences backwards: if the pattern occurs at
the very start of `u ++ re.sub(t)`, it already occurs at the start of
`u ++ t`. -/
theorem back : ∀ (n : Nat) (t u : List Char), t.length ≤ n →
    OccAt (u ++ fixContent t) → OccAt (u ++ t) := by
  intro n
  induction n with
  | zero =>
    intro t u h hocc
    have ht : t = [] := List.length_eq_zero.mp (Nat.le_zero.mp h)
    subst ht
    simpa [fixContent_nil] using hocc
  | succ n ih =>
    intro t u h hocc
    cases t with
    | nil => simpa [fixContent_nil] using hocc
    | cons c cs =>
      simp only [List.length_cons] at h
      cases hm : matchHere (c :: cs) with
      | none =>
        rw [fixContent_cons_none hm] at hocc
        have h2 : u ++ (c :: fixContent cs) = (u ++ [c]) ++ fixContent cs := by simp
        rw [h2] at hocc
        have hres := ih cs (u ++ [c]) (by omega) hocc
        simpa using hres
      | some v =>
        obtain ⟨g1, dta, rest⟩ := v
        rw [fixContent_match hm, replace_G3] at hocc
        have hlt := matchHere_some_length hm
        simp only [List.length_cons] at hlt
        have h2 : u ++ (g1 ++ CHECKMARK ++ G3 ++ fixContent rest)
            = (u ++ g1 ++ CHECKMARK ++ G3) ++ fixContent rest := by
          simp [List.append_assoc]
        rw [h2] at hocc
        have hocc2 := ih rest (u ++ g1 ++ CHECKMARK ++ G3) (by omega) hocc
        have h3 : (u ++ g1 ++ CHECKMARK ++ G3) ++ rest
            = (u ++ g1) ++ (CHECKMARK ++ (G3 ++ rest)) := by
          simp [List.append_assoc]
        rw [h3] at hocc2
        obtain ⟨A, B, hA, hB, hdq, hdl, hg1, ht⟩ := matchHere_some hm
        have hg1ne : g1 ≠ [] := by
          rw [hg1]
          simp
        have hvlast : (u ++ g1).getLast? = some '"' := by
          rw [@getLast?_of_suffix g1 (u ++ g1) ⟨u, rfl⟩ hg1ne, hg1]
          exact g1_last
        have hoccv := avoid hvlast (Or.inl rfl) hocc2
        obtain ⟨hteq, _⟩ := matchHere_some_eq hm
        rw [hteq]
        have hfin := OccAt_append hoccv (dta ++ (G3 ++ rest))
        simpa [List.append_assoc] using hfin

/-- No suffix of substituted text starts an occurrence of the pattern: the
substitution leaves no match behind. -/
theorem clean : ∀ (n : Nat) (t : List Char), t.length ≤ n →
    ∀ y, y.IsSuffix (fixContent t) → ¬ OccAt y := by
  intro n
  induction n with
  | zero =>
    intro t h y hy hocc
    have ht : t = [] := List.length_eq_zero.mp (Nat.le_zero.mp h)
    subst ht
    rw [fixContent_nil] at hy
    obtain ⟨w, hw⟩ := OccAt_head hocc
    rw [List.suffix_nil.mp hy] at hw
    simp at hw
  | succ n ih =>
    intro t h y hy hocc
    cases t with
    | nil =>
      rw [fixContent_nil] at hy
      obtain ⟨w, hw⟩ := OccAt_head hocc
      rw [List.suffix_nil.mp hy] at hw
      simp at hw
    | cons c cs =>
      simp only [List.length_cons] at h
      cases hm : matchHere (c :: cs) with
      | none =>
        rw [fixContent_cons_none hm] at hy
        rcases List.suffix_cons_iff.mp hy with hy1 | hy1
        · have hocc2 : OccAt ([c] ++ fixContent cs) := by
            rw [hy1] at hocc
            simpa using hocc
          have hb := back n cs [c] (by omega) hocc2
          rw [matchHere_none_iff] at hm
          exact hm (by simpa using hb)
        · exact ih cs (by omega) y hy1 hocc
      | some v =>
        obtain ⟨g1, dta, rest⟩ := v
        rw [fixContent_match hm, replace_G3] at hy
        have hlt := matchHere_some_length hm
        simp only [List.length_cons] at hlt
        have hsh : g1 ++ CHECKMARK ++ G3 ++ fixContent rest
            = g1 ++ (CHECKMARK ++ (G3 ++ fixContent rest)) := by
          simp [List.append_assoc]
        rw [hsh] at hy
        rcases suffix_append_split hy with hy1 | ⟨g1', hg1ne, hg1suf, hg1eq⟩
        · rcases suffix_append_split hy1 with hy2 | ⟨r', hr'ne, hr'suf, hr'eq⟩
          · rcases suffix_append_split hy2 with hy3 | ⟨g3', hg3ne, hg3suf, hg3eq⟩
            · exact ih rest (by omega) y hy3 hocc
            · -- `y` starts inside the copied `" /></svg>` of the replacement
              rw [hg3eq] at hocc
              have hb := back n rest g3' (by omega) hocc
              obtain ⟨w, hw⟩ := OccAt_head hb
              obtain ⟨gh, gt, rfl⟩ : ∃ hd tl, g3' = hd :: tl := by
                cases g3' with
                | nil => exact absurd rfl hg3ne
                | cons hd tl => exact ⟨hd, tl, rfl⟩
              rw [List.cons_append] at hw
              simp only [List.cons.injEq] at hw
              obtain ⟨hgh, hw2⟩ := hw
              subst hgh
              have hlt2 := G3_lt_suffix hg3suf rfl
              simp only [List.cons.injEq] at hlt2
              obtain ⟨_, hgt⟩ := hlt2
              rw [hgt] at hw2
              simp only [List.cons_append, List.cons.injEq] at hw2
              exact absurd hw2.1 (by decide)
          · -- `y` starts inside the inserted checkmark icon
            obtain ⟨w, hw⟩ := OccAt_head hocc
            obtain ⟨rh, rt, rfl⟩ : ∃ hd tl, r' = hd :: tl := by
              cases r' with
              | nil => exact absurd rfl hr'ne
              | cons hd tl => exact ⟨hd, tl, rfl⟩
            rw [hr'eq, List.cons_append] at hw
            simp only [List.cons.injEq] at hw
            have hmem : ('<' : Char) ∈ CHECKMARK :=
              hr'suf.subset (hw.1 ▸ List.mem_cons_self _ _)
            exact absurd hmem (by decide)
        · -- `y` starts inside the copied group 1 of the replacement
          rw [hg1eq] at hocc
          have hy2 : g1' ++ (CHECKMARK ++ (G3 ++ fixContent rest))
              = (g1' ++ (CHECKMARK ++ G3)) ++ fixContent rest := by
            simp [List.append_assoc]
          rw [hy2] at hocc
          have hb := back n rest (g1' ++ (CHECKMARK ++ G3)) (by omega) hocc
          have hb2 : OccAt (g1' ++ (CHECKMARK ++ (G3 ++ rest))) := by
            simpa [List.append_assoc] using hb
          obtain ⟨A, B, hA, hB, hdq, hdl, hg1, ht⟩ := matchHere_some hm
          have hg1'last : g1'.getLast? = some '"' := by
            rw [← getLast?_of_suffix hg1suf hg1ne, hg1]
            exact g1_last
          have hoccg1 := avoid hg1'last (Or.inl rfl) hb2
          have hcnt4 := OccAt_count_gt hoccg1
          have hcnt2 : List.count '>' g1 = 2 := by
            rw [hg1]
            exact g1_count hA hB
          have hle : List.count '>' g1' ≤ List.count '>' g1 :=
            (hg1suf.sublist).count_le _
          omega

/-- Idempotence of the per-file substitution. -/
theorem fixContent_idem (s : List Char) : fixContent (fixContent s) = fixContent s :=
  fixContent_id_of_clean (fixContent s).length (fixContent s) (le_refl _)
    (clean s.length s (le_refl _))

theorem findallCount_eq_subCount :
    ∀ (n : Nat) (c : List Char), c.length ≤ n → findallCount c = subCount c := by
  intro n
  induction n with
  | zero =>
    intro c h
    have hc : c = [] := List.length_eq_zero.mp (Nat.le_zero.mp h)
    subst hc
    rfl
  | succ n ih =>
    intro c h
    cases c with
    | nil => rfl
    | cons x xs =>
      simp only [List.length_cons] at h
      cases hm : matchHere (x :: xs) with
      | none =>
        rw [findallCount_cons_none hm, subCount_cons_none hm]
        exact ih xs (by omega)
      | some v =>
        obtain ⟨g1, dta, rest⟩ := v
        have hlt := matchHere_some_length hm
        simp only [List.length_cons] at hlt
        rw [findallCount_match hm, subCount_match hm, ih rest (by omega)]

set_option maxRecDepth 40000

/-! ### The claims -/

/-- C1.  Keyword routing of `replace_complex_icon`: for the three captured
groups of any match, when the captured suffix (group 3) contains one of the
literal substrings "disadvantage", "challenge", "pitfall" or "bottleneck"
case-insensitively, the shape data is replaced by the fixed `ALERT` path,
and otherwise by the fixed `CHECKMARK` path; in particular a captured
suffix containing "Pitfall" in any case (e.g. inside a trailing span)
routes the replacement to the alert shape. -/
theorem C1_keyword_routing (g1 g2 g3 : List Char) :
    (hasKeyword g3 = true → replace_complex_icon g1 g2 g3 = g1 ++ ALERT ++ g3) ∧
    (hasKeyword g3 = false → replace_complex_icon g1 g2 g3 = g1 ++ CHECKMARK ++ g3) ∧
    (containsSeq "pitfall".data (lowerStr g3) = true →
      replace_complex_icon g1 g2 g3 = g1 ++ ALERT ++ g3) := by
  refine ⟨?_, ?_, ?_⟩
  · intro h
    simp [replace_complex_icon, h]
  · intro h
    simp [replace_complex_icon, h]
  · intro h
    have hk : hasKeyword g3 = true := by
      unfold hasKeyword
      rw [List.any_eq_true]
      refine ⟨"pitfall".data, by simp [keywords], h⟩
    simp [replace_complex_icon, hk]

/-- Witness for C1 at the concrete suffix `" /></svg><span>Pitfall</span>`:
the mixed-case "Pitfall" is detected and the alert path is inserted. -/
theorem C1_keyword_routing_witness :
    containsSeq "pitfall".data (lowerStr "\" /></svg><span>Pitfall</span>".data) = true ∧
    replace_complex_icon "<h2><svg><path d=\"".data (List.replicate 85 'A')
        "\" /></svg><span>Pitfall</span>".data
      = "<h2><svg><path d=\"".data ++ ALERT ++ "\" /></svg><span>Pitfall</span>".data :=
  ⟨by decide, (C1_keyword_routing _ _ _).2.2 (by decide)⟩

/-- C2.  The claim says the threshold is strictly greater than 80, so that
a shape-data value of exactly 80 characters is not replaced.  The regex
`[^"]{80,}` however already matches a run of exactly 80 characters, in
contradiction with the comments in the source ("over 80 characters",
"longer than 80 characters"): the fragment with an 80-character value IS
rewritten (to the checkmark), the 79-character one is not, and the
81-character one is. -/
theorem C2_eighty_boundary :
    fixContent input80 = output80 ∧ output80 ≠ input80 ∧
    fixContent input79 = input79 ∧
    fixContent input81 ≠ input81 := by
  refine ⟨by decide, by decide, by decide, by decide⟩

/-- C3.  Idempotence: the per-file substitution is a fixed point — both
canonical icon paths are shorter than 80 characters, re-running the
substitution on an already-substituted content changes nothing, and a
second run over a file reports "No changes needed" for it. -/
theorem C3_idempotent (name : String) (c : List Char) :
    fixContent (fixContent c) = fixContent c ∧
    CHECKMARK.length < 80 ∧ ALERT.length < 80 ∧
    (processFile name (fixContent c)).line = "No changes needed in " ++ name ∧
    (processFile name (fixContent c)).wrote = false := by
  have hp : processFile name (fixContent c) =
      { newContent := fixContent c, wrote := false,
        line := "No changes needed in " ++ name } := by
    unfold processFile
    simp [fixContent_idem c]
  exact ⟨fixContent_idem c, by decide, by decide, by rw [hp], by rw [hp]⟩

/-- C4 counterexample.  On the scenario input (85-`A` data followed by
`<span>Pitfall</span>`), the code does NOT produce the alert path claimed
by the spec: group 3 captures only `" /></svg>`, which contains no trigger
word, so the checkmark is inserted. -/
theorem C4_scenario_counterexample :
    fixContent inputA ≠ outputA_alert ∧ fixContent inputA = outputA_check := by
  refine ⟨by decide, by decide⟩

/-- C4 as amended: the 85-`A` run is replaced by the literal CHECKMARK
path (not the alert path), the file is rewritten, and the console line is
exactly `Fixed 1 complex icons in a.html`. -/
theorem C4_scenario_amended :
    fixContent inputA = outputA_check ∧
    processFile "a.html" inputA =
      { newContent := outputA_check, wrote := true,
        line := "Fixed 1 complex icons in a.html" } := by
  refine ⟨by decide, by decide⟩

/-- C5.  When the substituted content differs from the original, the
number reported in `Fixed <N> complex icons in <name>` is the `re.findall`
count obtained by re-scanning the original, and that count equals the
number of replacements the substitution actually performed. -/
theorem C5_count_report (name : String) (c : List Char) (h : fixContent c ≠ c) :
    findallCount c = subCount c ∧
    (processFile name c).line =
      "Fixed " ++ Nat.repr (subCount c) ++ " complex icons in " ++ name := by
  have heq := findallCount_eq_subCount c.length c (le_refl _)
  refine ⟨heq, ?_⟩
  unfold processFile
  rw [if_neg h]
  rw [heq]

/-- Witness for C5 on the concrete changed file `input80`. -/
theorem C5_count_report_witness :
    fixContent input80 ≠ input80 ∧
    findallCount input80 = subCount input80 ∧
    (processFile "f.html" input80).line =
      "Fixed " ++ Nat.repr (subCount input80) ++ " complex icons in " ++ "f.html" := by
  have h : fixContent input80 ≠ input80 := by decide
  exact ⟨h, (C5_count_report "f.html" input80 h).1, (C5_count_report "f.html" input80 h).2⟩

/-- C6.  A disk write happens exactly when the substituted content differs
from the original; with zero matches the content is unchanged, nothing is
written, and the tool reports `No changes needed in <name>`. -/
theorem C6_write_iff (name : String) (c : List Char) :
    ((processFile name c).wrote = true ↔ fixContent c ≠ c) ∧
    (findallCount c = 0 →
      fixContent c = c ∧ (processFile name c).wrote = false ∧
      (processFile name c).newContent = c ∧
      (processFile name c).line = "No changes needed in " ++ name) := by
  constructor
  · by_cases h : fixContent c = c
    · unfold processFile
      simp [h]
    · unfold processFile
      simp [h]
  · intro hz
    have h := fixContent_id_of_findall_zero c.length c (le_refl _) hz
    unfold processFile
    simp [h]

/-- Witness for C6 on a file with zero matches. -/
theorem C6_write_iff_witness :
    findallCount "<p>hello</p>".data = 0 ∧
    fixContent "<p>hello</p>".data = "<p>hello</p>".data ∧
    (processFile "p.html" "<p>hello</p>".data).wrote = false ∧
    (processFile "p.html" "<p>hello</p>".data).line = "No changes needed in " ++ "p.html" := by
  have h := (C6_write_iff "p.html" "<p>hello</p>".data).2 (by decide)
  exact ⟨by decide, h.1, h.2.1, h.2.2.2⟩

/-- C7.  A vector-icon element not immediately preceded by the heading
opening tag never matches: every match starts with the literal `<h2><svg`,
and a content containing no `<h2><svg` substring at all is returned
byte-for-byte unchanged. -/
theorem C7_adjacency :
    (∀ t g1 dta rest : List Char, matchHere t = some (g1, dta, rest) →
      ∃ w, t = LH ++ w) ∧
    (∀ t : List Char, containsSeq LH t = false → fixContent t = t) := by
  constructor
  · intro t g1 dta rest h
    obtain ⟨A, B, _, _, _, _, _, ht⟩ := matchHere_some h
    exact ⟨A ++ '>' :: (LP ++ B ++ (LD ++ (dta ++ (G3 ++ rest)))), by
      rw [ht]; simp [List.append_assoc]⟩
  · intro t hc
    apply fixContent_id_of_clean t.length t (le_refl _)
    intro y hy hocc
    obtain ⟨A, B, D, r, heq, _⟩ := hocc
    have hpre : LH.isPrefixOf y :=
      List.isPrefixOf_iff_prefix.mpr ⟨A ++ '>' :: (LP ++ B ++ (LD ++ (D ++ (G3 ++ r)))), by
        rw [heq]; simp [List.append_assoc]⟩
    have htrue : containsSeq LH t = true := by
      unfold containsSeq
      rw [List.any_eq_true]
      exact ⟨y, (List.mem_tails _ _).mpr hy, hpre⟩
    rw [hc] at htrue
    simp at htrue

/-- Witness for C7: a fragment with a space between `<h2>` and `<svg` is
left unchanged. -/
theorem C7_adjacency_witness :
    containsSeq LH inputC7 = false ∧ fixContent inputC7 = inputC7 :=
  ⟨by decide, C7_adjacency.2 inputC7 (by decide)⟩

/-- C8.  Frame property of the replacement: a match decomposes the text as
group 1 ++ group 2 ++ `" /></svg>` ++ rest, and the substitution reproduces
group 1 and the captured `" /></svg>` unchanged, substituting only the
shape data between them; at a non-matching position the character is
copied verbatim. -/
theorem C8_frame :
    (∀ t g1 dta rest : List Char, matchHere t = some (g1, dta, rest) →
      t = g1 ++ (dta ++ (G3 ++ rest)) ∧
      fixContent t =
        (g1 ++ ((if hasKeyword G3 then ALERT else CHECKMARK) ++ G3)) ++ fixContent rest) ∧
    (∀ (c : Char) (cs : List Char), matchHere (c :: cs) = none →
      fixContent (c :: cs) = c :: fixContent cs) := by
  constructor
  · intro t g1 dta rest h
    refine ⟨(matchHere_some_eq h).1, ?_⟩
    rw [fixContent_match h]
    unfold replace_complex_icon
    simp [List.append_assoc]
  · intro c cs h
    exact fixContent_cons_none h

/-- Witness for C8 on the concrete match `input80` and a concrete
non-matching character. -/
theorem C8_frame_witness :
    matchHere input80 = some (g1of80, List.replicate 80 'B', []) ∧
    input80 = g1of80 ++ (List.replicate 80 'B' ++ (G3 ++ [])) ∧
    fixContent input80 =
      (g1of80 ++ ((if hasKeyword G3 then ALERT else CHECKMARK) ++ G3)) ++ fixContent [] ∧
    matchHere ['x'] = none ∧ fixContent ['x'] = 'x' :: fixContent [] := by
  have h1 : matchHere input80 = some (g1of80, List.replicate 80 'B', []) := by decide
  have h2 : matchHere ['x'] = none := by decide
  exact ⟨h1, (C8_frame.1 _ _ _ _ h1).1, (C8_frame.1 _ _ _ _ h1).2, h2, C8_frame.2 'x' [] h2⟩

/-- C9.  Exact literal token forms: every match uses the exact literals
`<h2><svg`, `d="` and `" /></svg>` (group 1 always has the shape
`<h2><svg…><path…d="` and the text after group 2 starts with the exact
ten characters `" /></svg>`); a heading with attributes, a single-quoted
shape-data attribute, or a self-close without the space never match and
leave the content unchanged. -/
theorem C9_exact_tokens :
    (∀ t g1 dta rest : List Char, matchHere t = some (g1, dta, rest) →
      ∃ A B, g1 = LH ++ A ++ '>' :: (LP ++ B ++ LD) ∧
        t = g1 ++ (dta ++ (G3 ++ rest))) ∧
    fixContent c9h2attr = c9h2attr ∧
    fixContent c9squote = c9squote ∧
    fixContent c9nospace = c9nospace := by
  refine ⟨?_, by decide, by decide, by decide⟩
  intro t g1 dta rest h
  obtain ⟨A, B, _, _, _, _, hg1, _⟩ := matchHere_some h
  exact ⟨A, B, hg1, (matchHere_some_eq h).1⟩

/-- Witness for C9 on the concrete match `input80`. -/
theorem C9_exact_tokens_witness :
    matchHere input80 = some (g1of80, List.replicate 80 'B', []) ∧
    ∃ A B, g1of80 = LH ++ A ++ '>' :: (LP ++ B ++ LD) ∧
      input80 = g1of80 ++ (List.replicate 80 'B' ++ (G3 ++ [])) := by
  have h1 : matchHere input80 = some (g1of80, List.replicate 80 'B', []) := by decide
  exact ⟨h1, C9_exact_tokens.1 _ _ _ _ h1⟩

/-- C10.  The per-file transformation is a pure function of the content:
equal contents give equal substituted contents, the same write decision,
and a console line fully determined by the content (up to the file name
spliced into it), independently of the name or any other state. -/
theorem C10_pure (n1 n2 : String) (c1 c2 : List Char) (h : c1 = c2) :
    fixContent c1 = fixContent c2 ∧
    (processFile n1 c1).newContent = (processFile n2 c2).newContent ∧
    (processFile n1 c1).wrote = (processFile n2 c2).wrote ∧
    (processFile n1 c1).line =
      (if fixContent c1 = c1 then "No changes needed in " ++ n1
       else "Fixed " ++ Nat.repr (findallCount c1) ++ " complex icons in " ++ n1) := by
  subst h
  refine ⟨rfl, ?_, ?_, ?_⟩ <;>
    unfold processFile <;>
    by_cases hc : fixContent c1 = c1 <;>
    simp [hc]

/-- Witness for C10 at a concrete content processed under two names. -/
theorem C10_pure_witness :
    fixContent "x".data = fixContent "x".data ∧
    (processFile "a.html" "x".data).newContent = (processFile "b.html" "x".data).newContent ∧
    (processFile "a.html" "x".data).wrote = (processFile "b.html" "x".data).wrote ∧
    (processFile "a.html" "x".data).line =
      (if fixContent "x".data = "x".data then "No changes needed in " ++ "a.html"
       else "Fixed " ++ Nat.repr (findallCount "x".data) ++ " complex icons in " ++ "a.html") :=
  C10_pure "a.html" "b.html" "x".data "x".data rfl

end FixIcons
